import Mathlib

/-!
A shallow embedding of the kanji-net repository (kn-core + kin) in Lean 4,
with theorems settling the frozen claims about it.

Conventions of the embedding:
* Rust `char` is Lean `Char`; a Rust `String`/`&str` reading is viewed
  through `.chars()` as a `List Char` (`Reading`).
* The `Kanji` newtype of the external `kanji` crate is a validated `char`;
  the validation itself is external, so a kanji is modelled as a `Char`.
* `HashMap<Kanji, Entry>` is modelled as a `List Entry` whose keys are
  pairwise distinct (`NodupKeys`); `HashSet<NodeIndex>` is a `Finset Nat`.
* The unbounded recursions of `DB::all_parents` / `DB::all_children` are
  modelled with an explicit fuel parameter: a result `some s` for some fuel
  means the Rust recursion terminates with value `s`; `none` for every fuel
  means the recursion never completes.
-/

namespace KanjiNet

/-- A reading: the character sequence of a Rust reading string. -/
abbrev Reading := List Char

/-- Modelled from the spec: the proficiency `Level` of the external `kanji`
crate (its declaration is not under `src/`); it is opaque to all graph and
grouping logic, so it is a bare wrapper. -/
structure Level where
  val : Nat
deriving DecidableEq, Repr

/-- `Entry` from `kn-core/src/lib.rs`: one record per known kanji. -/
structure Entry where
  kanji : Char
  oya : List Char
  kakushi_oya : List Char
  onyomi : List Reading
  daihyou : List Reading
deriving DecidableEq, Repr

/-- `Inherit` from `kn-core/src/lib.rs`: the relationship between parents
and children in terms of their readings, in source declaration order. -/
inductive Inherit where
  | Same
  | Second
  | Voicing
  | Rhyme
  | Consonant
  | Differ
  | None
deriving DecidableEq, Repr

/-- `voiced_char` from `kn-core/src/utils.rs`: the voiced/unvoiced
counterpart table over the か/さ/た rows (the は row is excluded on
purpose in the source). -/
def voiced_char (c : Char) : Option Char :=
  match c with
  | 'か' => some 'が'
  | 'き' => some 'ぎ'
  | 'く' => some 'ぐ'
  | 'け' => some 'げ'
  | 'こ' => some 'ご'
  | 'が' => some 'か'
  | 'ぎ' => some 'き'
  | 'ぐ' => some 'く'
  | 'げ' => some 'け'
  | 'ご' => some 'こ'
  | 'さ' => some 'ざ'
  | 'し' => some 'じ'
  | 'す' => some 'ず'
  | 'せ' => some 'ぜ'
  | 'そ' => some 'ぞ'
  | 'ざ' => some 'さ'
  | 'じ' => some 'し'
  | 'ず' => some 'す'
  | 'ぜ' => some 'せ'
  | 'ぞ' => some 'そ'
  | 'た' => some 'だ'
  | 'ち' => some 'ぢ'
  | 'つ' => some 'づ'
  | 'て' => some 'で'
  | 'と' => some 'ど'
  | 'だ' => some 'た'
  | 'ぢ' => some 'ち'
  | 'づ' => some 'つ'
  | 'で' => some 'て'
  | 'ど' => some 'と'
  | _ => none

/-- `is_voiced_pair` from `kn-core/src/utils.rs`.  The Rust body zips the
two character iterators, checks the first zipped pair against the voicing
table, and requires every remaining zipped pair to be equal; an empty zip
head yields `false`. -/
def is_voiced_pair (a b : Reading) : Bool :=
  match a, b with
  | x :: ta, y :: tb =>
    (((voiced_char x).map fun c => c == y).getD false)
      && (ta.zip tb).all fun p => p.1 == p.2
  | _, _ => false

/-- `vowel` from `kn-core/src/utils.rs`: the vowel class of a hiragana. -/
def vowel (c : Char) : Option Char :=
  match c with
  | 'あ' | 'か' | 'さ' | 'た' | 'な' | 'は' | 'ま' | 'や' | 'ら' | 'わ' => some 'あ'
  | 'が' | 'ざ' | 'だ' | 'ば' | 'ぱ' => some 'あ'
  | 'い' | 'き' | 'し' | 'ち' | 'に' | 'ひ' | 'み' | 'り' => some 'い'
  | 'ぎ' | 'じ' | 'ぢ' | 'び' | 'ぴ' => some 'い'
  | 'う' | 'く' | 'す' | 'つ' | 'ぬ' | 'ふ' | 'む' | 'ゆ' | 'る' => some 'う'
  | 'ぐ' | 'ず' | 'づ' | 'ぶ' | 'ぷ' => some 'う'
  | 'え' | 'け' | 'せ' | 'て' | 'ね' | 'へ' | 'め' | 'れ' => some 'え'
  | 'げ' | 'ぜ' | 'で' | 'べ' | 'ぺ' => some 'え'
  | 'お' | 'こ' | 'そ' | 'と' | 'の' | 'ほ' | 'も' | 'よ' | 'ろ' => some 'お'
  | 'ご' | 'ぞ' | 'ど' | 'ぼ' | 'ぽ' => some 'お'
  | _ => none

/-- `is_rhyme` from `kn-core/src/utils.rs`.  The first zipped pair must
have equal `vowel` results (note: two characters outside the vowel table
both map to `none` and therefore compare equal), and every remaining
zipped pair must be equal. -/
def is_rhyme (a b : Reading) : Bool :=
  match a, b with
  | x :: ta, y :: tb =>
    (vowel x == vowel y) && (ta.zip tb).all fun p => p.1 == p.2
  | _, _ => false

/-- The edge classifier inlined in `DB::new` (`kn-core/src/lib.rs`,
lines 139-150): given the child entry `e` and the parent entry `oya`,
the guards are tried in source order on the two first onyomi. -/
def edgeInherit (e oya : Entry) : Inherit :=
  match e.onyomi.head?, oya.onyomi.head? with
  | some a, some b =>
    if a = b then Inherit.Same
    else if is_voiced_pair a b then Inherit.Voicing
    else if is_rhyme a b then Inherit.Rhyme
    else if e.onyomi.any fun x => oya.onyomi.any fun y => x == y then Inherit.Second
    else Inherit.Differ
  | _, _ => Inherit.None

/-- The entry store: `HashMap<Kanji, Entry>` modelled as a list of entries.
Hash iteration order is arbitrary, so the list order carries no contract;
map-ness is the `NodupKeys` invariant below. -/
abbrev Store := List Entry

/-- The `HashMap` invariant: entry keys are pairwise distinct. -/
def NodupKeys (S : Store) : Prop := (S.map (·.kanji)).Nodup

/-- `entries.get(k)`: look an entry up by its kanji key. -/
def lookupStore (S : Store) (k : Char) : Option Entry :=
  S.find? fun e => e.kanji == k

/-- `index.get(k)`: the node index of a kanji.  `DB::new` adds one graph
node per key in iteration order, so a key's node index is its position in
the store. -/
def indexOf (S : Store) (k : Char) : Option Nat :=
  S.findIdx? fun e => e.kanji == k

/-- The edge-building loop of `DB::new` (`kn-core/src/lib.rs`, lines
127-153): for every entry `e` and every `o` in `e.oya`, if `o` has both an
entry and a node index, add one directed edge from `o`'s node to `e`'s
node, labelled by the classifier; a dangling `o` is silently skipped by
the `filter_map`. -/
def buildEdges (S : Store) : List (Nat × Nat × Inherit) :=
  S.flatMap fun e =>
    match indexOf S e.kanji with
    | none => []
    | some cix =>
      e.oya.filterMap fun o =>
        match lookupStore S o, indexOf S o with
        | some oyaE, some oix => some (oix, cix, edgeInherit e oyaE)
        | _, _ => none

/-- `DB` from `kn-core/src/lib.rs`: the petgraph `Graph` is modelled by its
node-weight list (in index order) and its edge list. -/
structure DB where
  entries : Store
  nodes : List Char
  edges : List (Nat × Nat × Inherit)
deriving DecidableEq, Repr

/-- `DB::new`: one node per key, then the edge loop.  Total: it never
errors, on dangling parent references included. -/
def DB.new (S : Store) : DB :=
  ⟨S, S.map (·.kanji), buildEdges S⟩

/-- `DB::entry`: the entry of a node index, via the node weight. -/
def DB.entry (db : DB) (nix : Nat) : Option Entry :=
  (db.nodes[nix]?).bind fun k => lookupStore db.entries k

/-- The per-entry normalization of `write_db`: `e.oya.sort()`. -/
def sortOya (e : Entry) : Entry :=
  { e with oya := e.oya.mergeSort fun a b => decide (a ≤ b) }

/-- `write_db` (`kn-core/src/lib.rs`, lines 372-383) without the IO and
serde layers: entries are sorted ascending by kanji, each entry's `oya` is
sorted, and the result is the record sequence handed to the serializer.
Serde round-trips the sequence itself (absent fields deserialize to the
empty default they were skipped for), so the persisted file is modelled by
this list. -/
def write_db (S : Store) : List Entry :=
  (S.mergeSort fun a b => decide (a.kanji ≤ b.kanji)).map sortOya

/-- `HashMap::insert`: returns the previous entry for the key, and the map
with the new entry bound to the key. -/
def insertEntry (S : Store) (e : Entry) : Option Entry × Store :=
  match lookupStore S e.kanji with
  | some old => (some old, S.map fun x => if x.kanji == e.kanji then e else x)
  | none => (none, S ++ [e])

/-- The map-building collect of `open_db` (`kn-core/src/lib.rs`, lines
363-369): fold the parsed record sequence into the keyed map, later
records overwriting earlier ones with the same key. -/
def buildStore (l : List Entry) : Store :=
  l.foldl (fun acc e => (insertEntry acc e).2) []

/-- `open_db` without the IO and serde layers: parse the persisted record
sequence and build the `DB`. -/
def open_db (l : List Entry) : DB :=
  DB.new (buildStore l)

/-- The error taxonomy.  `Io` and `Json` are the variants declared in
`kn-core/src/lib.rs`.  `Exists` is modelled from the spec (§7): the CLI in
`src/kin/src/main.rs` raises `core::Error::Exists(kanji)` on an insertion
collision, but the variant's declaration is not under `src/`. -/
inductive KError where
  | Io
  | Json
  | Exists (k : Char)
deriving DecidableEq, Repr

/-- The observable outcome of one `kin new` invocation: the returned
result, the final on-disk record sequence, and the final in-memory store. -/
structure NewEntryOutcome where
  result : Except KError Unit
  disk : List Entry
  mem : Store
deriving Repr

/-- `new_entry` from `src/kin/src/main.rs` (lines 103-116), with the
prompt replaced by the entry it produced and file IO by the record
sequence: open the db, insert the entry into the in-memory map, and only
when no previous entry existed write the db back; on a collision the
invocation fails with `Exists` and the disk is left as it was. -/
def new_entry (disk : List Entry) (entry : Entry) : NewEntryOutcome :=
  let db := buildStore disk
  match insertEntry db entry with
  | (some _, mem) => ⟨Except.error (KError.Exists entry.kanji), disk, mem⟩
  | (none, mem) => ⟨Except.ok (), write_db mem, mem⟩

/-- One union step of the `oya` folds shared by `DB::all_parents` and the
`other_parents` computation of `DB::all_children`: for each `o` in the
`oya` list, skip it when it has no node index, and otherwise union in
`f o` (the recursive ancestor set) with `o`'s own index inserted.  `f`
returning `none` signals that the recursion below ran out of fuel. -/
def oyaStep (S : Store) (f : Char → Option (Finset Nat)) (oya : List Char) :
    Option (Finset Nat) :=
  oya.foldr
    (fun o acc =>
      match acc with
      | none => none
      | some s =>
        match indexOf S o with
        | none => some s
        | some ix =>
          match f o with
          | none => none
          | some ps => some (insert ix ps ∪ s))
    (some ∅)

/-- `DB::all_parents` (`kn-core/src/lib.rs`, lines 329-345) with fuel: all
nodes reachable by following `oya` upward, not including the start.  A
kanji without an entry yields the empty set. -/
def all_parents (S : Store) : Nat → Char → Option (Finset Nat)
  | 0, _ => none
  | fuel + 1, k =>
    match lookupStore S k with
    | none => some ∅
    | some e => oyaStep S (all_parents S fuel) e.oya

/-- `neighbors_directed(kix, Outgoing)`: the targets of the edges whose
source is `kix` (as a list; the caller collects into a set). -/
def childIxs (edges : List (Nat × Nat × Inherit)) (kix : Nat) : List Nat :=
  edges.filterMap fun t => if t.1 == kix then some t.2.1 else none

/-- The `other_parents` computation inside `DB::all_children`: the
ancestor chains of a child node's own parents (`self.entry(kix)` followed
by the same `oya` fold as `all_parents`, with `unwrap_or_default` giving
the empty set for a node without an entry). -/
def otherParents (db : DB) (fp : Char → Option (Finset Nat)) (tix : Nat) :
    Option (Finset Nat) :=
  match db.entry tix with
  | none => some (∅ : Finset Nat)
  | some e => oyaStep db.entries fp e.oya

/-- The per-neighbour fold of `DB::all_children`: for each outgoing
neighbour `tix`, union its recursive descendant set (`fc tix`) with the
ancestor chains of `tix`'s other parents (`fp` being `all_parents`). -/
def childStep (db : DB) (fc : Nat → Option (Finset Nat))
    (fp : Char → Option (Finset Nat)) (l : List Nat) : Option (Finset Nat) :=
  l.foldr
    (fun tix acc =>
      match acc with
      | none => none
      | some s =>
        match fc tix with
        | none => none
        | some grand =>
          match otherParents db fp tix with
          | none => none
          | some others => some (grand ∪ others ∪ s))
    (some ∅)

/-- `DB::all_children` (`kn-core/src/lib.rs`, lines 297-326) with fuel:
walk down outgoing edges, at each child also pulling in that child's other
parents' ancestor sets, and finally insert the starting node itself. -/
def all_children (db : DB) : Nat → Nat → Option (Finset Nat)
  | 0, _ => none
  | fuel + 1, kix =>
    match childStep db (all_children db fuel) (all_parents db.entries fuel)
        (childIxs db.edges kix) with
    | none => none
    | some s => some (insert kix s)

/-- One element of the `filtered` iterator feeding `DB::dot_custom` /
`DB::with_groups`: the node index, the kanji, the first onyomi reading,
and the level-table entry. -/
structure NodeInfo where
  ix : Nat
  k : Char
  yomi : Option Reading
  lvl : Option Level
deriving DecidableEq, Repr

/-- One emitted node block of the grouped dot output, abstracting the
formatted text: either a single flat node statement, or one labelled
`subgraph cluster` block with its member node statements in order.  The
`Bool` is the highlight shape (`DB::shape`: `doublecircle` iff chosen). -/
inductive DotItem where
  | flat (n : NodeInfo) (highlighted : Bool)
  | cluster (yomi : Reading) (members : List (NodeInfo × Bool))
deriving DecidableEq, Repr

/-- Rust `str` ordering: lexicographic on the character sequence (UTF-8
byte order coincides with code-point order). -/
def lexLe : List Char → List Char → Bool
  | [], _ => true
  | _ :: _, [] => false
  | x :: xs, y :: ys => if x < y then true else if x = y then lexLe xs ys else false

/-- Rust `Option` ordering used by `sorted_by(|a, b| a.2.cmp(&b.2))`:
`None` compares less than every `Some`. -/
def optLe : Option Reading → Option Reading → Bool
  | none, _ => true
  | some _, none => false
  | some a, some b => lexLe a b

/-- itertools `group_by`: split a list into maximal runs of consecutive
elements sharing a key. -/
def runs {α κ : Type} [DecidableEq κ] (key : α → κ) : List α → List (κ × List α)
  | [] => []
  | x :: xs =>
    match runs key xs with
    | [] => [(key x, [x])]
    | (kk, g) :: rest =>
      if key x = kk then (kk, x :: g) :: rest
      else (key x, [x]) :: (kk, g) :: rest

/-- The per-group emission of `DB::with_groups`: the `match yomi` on one
`group_by` group — a labelled cluster for a `Some` reading shared by more
than one node, flat node statements otherwise. -/
def emitGroup (chosen : List Char) (g : Option Reading × List NodeInfo) :
    List DotItem :=
  match g.1 with
  | some y =>
    if g.2.length > 1 then
      [DotItem.cluster y (g.2.map fun n => (n, chosen.contains n.k))]
    else g.2.map fun n => DotItem.flat n (chosen.contains n.k)
  | none => g.2.map fun n => DotItem.flat n (chosen.contains n.k)

/-- `DB::with_groups` (`kn-core/src/lib.rs`, lines 231-280), abstracting
the emitted text to `DotItem`s: sort the nodes by first reading (stable,
with the Rust `Option` order), group consecutive equal readings, and emit
each group. -/
def with_groups (chosen : List Char) (filtered : List NodeInfo) : List DotItem :=
  (runs (fun n => n.yomi)
    (filtered.mergeSort fun x y => optLe x.yomi y.yomi)).flatMap (emitGroup chosen)

/-- The reading key under which a `DotItem` was emitted. -/
def itemKey : DotItem → Option Reading
  | DotItem.flat n _ => n.yomi
  | DotItem.cluster y _ => some y

/-- The node tuples a `DotItem` emits, in emission order. -/
def itemNodes : DotItem → List NodeInfo
  | DotItem.flat n _ => [n]
  | DotItem.cluster _ ms => ms.map (·.1)

/-- The immediate-parent step relation of the store: `o` is a present
parent of `k`.  `DB::all_parents` recurses along exactly this relation. -/
def oyaRel (S : Store) (o k : Char) : Prop :=
  ∃ e, lookupStore S k = some e ∧ o ∈ e.oya ∧ (indexOf S o).isSome = true

/-- The outgoing-edge step relation of the graph: there is an edge from
node `s` to node `t`.  `DB::all_children` recurses along exactly this
relation. -/
def childRel (db : DB) (t s : Nat) : Prop :=
  ∃ w, (s, t, w) ∈ db.edges

/-- A three-generation chain: `b`'s parent is `a`, `c`'s parent is `b`,
and there are no other relationships.  Node indices are 0, 1, 2. -/
def chainStore (a b c : Char) : Store :=
  [⟨a, [], [], [], []⟩, ⟨b, [a], [], [], []⟩, ⟨c, [b], [], [], []⟩]

/-- A store whose single entry lists itself as its own parent: the
smallest cyclic input the builder accepts. -/
def selfStore : Store := [⟨'口', ['口'], [], [], []⟩]

/-! ## Phonetic classifier lemmas (claims C1, C7, C8, C10) -/

/-- The voicing table never maps a character to itself. -/
theorem voiced_char_ne {c d : Char} (h : voiced_char c = some d) : c ≠ d := by
  unfold voiced_char at h
  split at h <;> (try injection h with h) <;> (try cases h) <;> decide

/-- Zipping a list with itself yields only equal pairs. -/
theorem zip_self_all (t : List Char) : (t.zip t).all (fun p => p.1 == p.2) = true := by
  induction t with
  | nil => rfl
  | cons x xs ih => simp [List.zip_cons_cons, ih]

/-- C10: `is_voiced_pair` is irreflexive: for every reading `a`, including
the empty one, `is_voiced_pair a a = false`, because the voicing table
never maps a character to itself. -/
theorem voiced_pair_irreflexive (a : Reading) : is_voiced_pair a a = false := by
  match a with
  | [] => rfl
  | x :: t =>
    simp only [is_voiced_pair]
    cases hv : voiced_char x with
    | none => simp
    | some d =>
      have hne : x ≠ d := voiced_char_ne hv
      simp [hv, Ne.symm hne]

/-- The claim C7's reading of the voiced-pair rule, following the spec's
words: first characters are a table pair and the remaining characters of
the two readings are identical (as the full remaining sequences). -/
def voicedPairClaim (a b : Reading) : Bool :=
  match a, b with
  | x :: ta, y :: tb =>
    (((voiced_char x).map fun c => c == y).getD false) && ta == tb
  | _, _ => false

/-- C7 (counterexample): on `か` versus `がく` the code returns `true`
although the remaining characters (`[]` versus `く`) are not identical:
the zip truncates at the shorter reading, so the length mismatch is not
detected and the claimed characterization disagrees with the code. -/
theorem voiced_pair_truncation_counterexample :
    is_voiced_pair ['か'] ['が', 'く'] = true
    ∧ voicedPairClaim ['か'] ['が', 'く'] = false := by decide

/-- C7 (amended): `is_voiced_pair a b` is true iff both readings are
nonempty, the first characters are a voicing-table pair, and the remaining
characters agree position-wise up to the length of the shorter reading
(characters of the longer reading beyond that are ignored). -/
theorem voiced_pair_characterization (a b : Reading) :
    is_voiced_pair a b = true ↔
      ∃ x y ta tb, a = x :: ta ∧ b = y :: tb ∧ voiced_char x = some y
        ∧ (ta.zip tb).all (fun p => p.1 == p.2) = true := by
  match a, b with
  | [], _ => simp [is_voiced_pair]
  | _ :: _, [] => simp [is_voiced_pair]
  | x :: ta, y :: tb =>
    simp only [is_voiced_pair, Bool.and_eq_true]
    constructor
    · rintro ⟨h1, h2⟩
      cases hv : voiced_char x with
      | none => simp [hv] at h1
      | some c =>
        simp [hv] at h1
        exact ⟨x, y, ta, tb, rfl, rfl, by rw [hv, h1], h2⟩
    · rintro ⟨x', y', ta', tb', hx, hy, hv, hall⟩
      cases hx; cases hy
      simp [hv, hall]

/-- C8 (counterexample): `ア` and `ン` are both outside the vowel table
(`vowel` is `none` on them), yet `is_rhyme` returns `true`, because the
code compares the two `Option` results and `none == none` holds. -/
theorem rhyme_off_table_counterexample :
    is_rhyme ['ア'] ['ン'] = true ∧ vowel 'ア' = none ∧ vowel 'ン' = none := by
  decide

/-- C8 (amended): `is_rhyme a b` is true iff both readings are nonempty,
the `vowel` results of the first characters are equal — including the case
where both are outside the table and map to `none` — and the remaining
characters agree position-wise up to the shorter length; reflexivity holds
for every nonempty reading, whether or not its characters are in the
table. -/
theorem rhyme_characterization :
    (∀ a b : Reading, is_rhyme a b = true ↔
      ∃ x y ta tb, a = x :: ta ∧ b = y :: tb ∧ vowel x = vowel y
        ∧ (ta.zip tb).all (fun p => p.1 == p.2) = true)
    ∧ (∀ (x : Char) (ta : List Char), is_rhyme (x :: ta) (x :: ta) = true) := by
  constructor
  · intro a b
    match a, b with
    | [], _ => simp [is_rhyme]
    | _ :: _, [] => simp [is_rhyme]
    | x :: ta, y :: tb =>
      simp only [is_rhyme, Bool.and_eq_true, beq_iff_eq]
      constructor
      · rintro ⟨h1, h2⟩
        exact ⟨x, y, ta, tb, rfl, rfl, h1, h2⟩
      · rintro ⟨x', y', ta', tb', hx, hy, hv, hall⟩
        cases hx; cases hy
        exact ⟨hv, hall⟩
  · intro x ta
    simp [is_rhyme, zip_self_all]

/-- C1: the edge label computed by `DB::new` is chosen by the priority
order Same, Voicing, Rhyme, Second, Differ, with None when a first reading
is absent, and the alternatives are mutually exclusive (`Consonant` is
never produced); in particular a `こく` child under a `ごく` parent gets a
`Voicing` edge and a `こく` child under a `よく` parent gets a `Rhyme`
edge. -/
theorem classifier_priority_exclusive :
    (∀ c p : Entry, edgeInherit c p ≠ Inherit.Consonant)
    ∧ (∀ (c p : Entry) (a b : Reading),
        c.onyomi.head? = some a → p.onyomi.head? = some b →
        ((edgeInherit c p = Inherit.Same ↔ a = b)
          ∧ (edgeInherit c p = Inherit.Voicing ↔ a ≠ b ∧ is_voiced_pair a b = true)
          ∧ (edgeInherit c p = Inherit.Rhyme ↔
              a ≠ b ∧ is_voiced_pair a b = false ∧ is_rhyme a b = true)
          ∧ (edgeInherit c p = Inherit.Second ↔
              a ≠ b ∧ is_voiced_pair a b = false ∧ is_rhyme a b = false
                ∧ (c.onyomi.any fun x => p.onyomi.any fun y => x == y) = true)
          ∧ (edgeInherit c p = Inherit.Differ ↔
              a ≠ b ∧ is_voiced_pair a b = false ∧ is_rhyme a b = false
                ∧ (c.onyomi.any fun x => p.onyomi.any fun y => x == y) = false)
          ∧ edgeInherit c p ≠ Inherit.None))
    ∧ (∀ c p : Entry, (c.onyomi.head? = none ∨ p.onyomi.head? = none) →
        edgeInherit c p = Inherit.None)
    ∧ buildEdges [⟨'国', ['極'], [], [['こ','く']], []⟩, ⟨'極', [], [], [['ご','く']], []⟩]
        = [(1, 0, Inherit.Voicing)]
    ∧ buildEdges [⟨'国', ['浴'], [], [['こ','く']], []⟩, ⟨'浴', [], [], [['よ','く']], []⟩]
        = [(1, 0, Inherit.Rhyme)] := by
  refine ⟨?_, ?_, ?_, by decide, by decide⟩
  · intro c p
    unfold edgeInherit
    split
    · split_ifs <;> simp
    · simp
  · intro c p a b ha hb
    simp only [edgeInherit, ha, hb]
    split_ifs with h1 h2 h3 h4 <;> simp_all
  · rintro c p (h | h) <;> simp [edgeInherit, h]

/-- Witness for C1: the Voicing alternative of the characterization,
instantiated at the concrete `こく`/`ごく` entries. -/
theorem classifier_priority_exclusive_witness :
    edgeInherit ⟨'国', ['極'], [], [['こ','く']], []⟩ ⟨'極', [], [], [['ご','く']], []⟩
      = Inherit.Voicing :=
  ((classifier_priority_exclusive.2.1
      ⟨'国', ['極'], [], [['こ','く']], []⟩ ⟨'極', [], [], [['ご','く']], []⟩
      ['こ','く'] ['ご','く'] rfl rfl).2.1).mpr ⟨by decide, by decide⟩


/-! ## Entry store lemmas (claims C3, C4, C6) -/

/-- A lookup succeeds exactly when the kanji is among the store's keys. -/
theorem lookup_isSome_iff_mem_keys (S : Store) (k : Char) :
    (lookupStore S k).isSome = true ↔ k ∈ S.map (·.kanji) := by
  rw [lookupStore, List.find?_isSome]
  constructor
  · rintro ⟨e, he, hp⟩
    rw [beq_iff_eq] at hp
    exact hp ▸ List.mem_map_of_mem _ he
  · intro hk
    rw [List.mem_map] at hk
    obtain ⟨e, he, hk⟩ := hk
    exact ⟨e, he, by simp [hk]⟩

/-- The node-index map and the entry map have the same domain. -/
theorem indexOf_isSome_iff (S : Store) (k : Char) :
    (indexOf S k).isSome = true ↔ (lookupStore S k).isSome = true := by
  rw [indexOf, List.findIdx?_isSome, lookupStore, List.find?_isSome, List.any_eq_true]

/-- A found node index is in range and the node weight there is the looked
up kanji. -/
theorem indexOf_some_spec (S : Store) (k : Char) (i : Nat)
    (h : indexOf S k = some i) :
    i < S.length ∧ (S.map (·.kanji))[i]? = some k := by
  rw [indexOf, List.findIdx?_eq_some_iff_findIdx_eq] at h
  obtain ⟨hlen, hidx⟩ := h
  subst hidx
  refine ⟨hlen, ?_⟩
  rw [List.getElem?_map, List.getElem?_eq_getElem hlen]
  have hp := @List.findIdx_getElem _ (fun e => e.kanji == k) S hlen
  rw [beq_iff_eq] at hp
  simp [hp]

/-- A `filterMap` keeps as many elements as the predicate matching its
success condition counts. -/
theorem length_filterMap_eq_countP {α β : Type} (f : α → Option β) (p : α → Bool)
    (l : List α) (h : ∀ x ∈ l, (f x).isSome = p x) :
    (l.filterMap f).length = l.countP p := by
  induction l with
  | nil => rfl
  | cons x t ih =>
    have hx := h x (List.mem_cons_self x t)
    rw [List.filterMap_cons, List.countP_cons]
    cases hf : f x with
    | none =>
      rw [hf] at hx
      simp only [Option.isSome_none] at hx
      rw [← hx]
      simpa using ih fun y hy => h y (List.mem_cons_of_mem x hy)
    | some b =>
      rw [hf] at hx
      simp only [Option.isSome_some] at hx
      rw [← hx]
      simp [ih fun y hy => h y (List.mem_cons_of_mem x hy)]

/-- C4: the graph of `DB::new` has exactly one directed edge per `oya`
occurrence whose parent has an entry — none for dangling references — the
builder is total, and every edge's endpoints are node indices whose kanji
have entries in the store. -/
theorem graph_edges_exactly_present_parents (S : Store) :
    ((buildEdges S).length
      = (S.map fun e => e.oya.countP fun o => (lookupStore S o).isSome).sum)
    ∧ (∀ q ∈ buildEdges S, ∃ ok ck,
        (DB.new S).nodes[q.1]? = some ok ∧ (DB.new S).nodes[q.2.1]? = some ck
        ∧ (lookupStore S ok).isSome = true ∧ (lookupStore S ck).isSome = true)
    ∧ (∀ e ∈ S, ∀ o ∈ e.oya, (lookupStore S o).isSome = true →
        ∃ oix cix w, indexOf S o = some oix ∧ indexOf S e.kanji = some cix
          ∧ (oix, cix, w) ∈ buildEdges S) := by
  refine ⟨?_, ?_, ?_⟩
  · rw [buildEdges, List.length_flatMap]
    congr 1
    apply List.map_congr_left
    intro e he
    have hk : (lookupStore S e.kanji).isSome = true :=
      (lookup_isSome_iff_mem_keys S e.kanji).mpr (List.mem_map_of_mem _ he)
    obtain ⟨cix, hcix⟩ := Option.isSome_iff_exists.mp
      ((indexOf_isSome_iff S e.kanji).mpr hk)
    simp only [Function.comp_apply, hcix]
    apply length_filterMap_eq_countP
    intro o _
    cases hl : lookupStore S o with
    | none => simp
    | some oyaE =>
      obtain ⟨oix, hoix⟩ := Option.isSome_iff_exists.mp
        ((indexOf_isSome_iff S o).mpr (by simp [hl]))
      simp [hl, hoix]
  · intro q hq
    rw [buildEdges] at hq
    obtain ⟨e, he, hin⟩ := List.mem_flatMap.mp hq
    cases hcix : indexOf S e.kanji with
    | none => rw [hcix] at hin; exact absurd hin (List.not_mem_nil q)
    | some cix =>
      rw [hcix] at hin
      obtain ⟨o, ho, hf⟩ := List.mem_filterMap.mp hin
      cases hl : lookupStore S o with
      | none => rw [hl] at hf; exact absurd hf (by simp)
      | some oyaE =>
        cases hio : indexOf S o with
        | none => rw [hl, hio] at hf; exact absurd hf (by simp)
        | some oix =>
          rw [hl, hio] at hf
          obtain rfl : (oix, cix, edgeInherit e oyaE) = q := by
            simpa using hf
          obtain ⟨hlt1, hget1⟩ := indexOf_some_spec S o oix hio
          obtain ⟨hlt2, hget2⟩ := indexOf_some_spec S e.kanji cix hcix
          refine ⟨o, e.kanji, hget1, hget2, by simp [hl], ?_⟩
          exact (lookup_isSome_iff_mem_keys S e.kanji).mpr (List.mem_map_of_mem _ he)
  · intro e he o ho hl
    obtain ⟨oyaE, hle⟩ := Option.isSome_iff_exists.mp hl
    obtain ⟨oix, hoix⟩ := Option.isSome_iff_exists.mp
      ((indexOf_isSome_iff S o).mpr hl)
    have hk : (lookupStore S e.kanji).isSome = true :=
      (lookup_isSome_iff_mem_keys S e.kanji).mpr (List.mem_map_of_mem _ he)
    obtain ⟨cix, hcix⟩ := Option.isSome_iff_exists.mp
      ((indexOf_isSome_iff S e.kanji).mpr hk)
    refine ⟨oix, cix, edgeInherit e oyaE, hoix, hcix, ?_⟩
    rw [buildEdges]
    apply List.mem_flatMap.mpr
    refine ⟨e, he, ?_⟩
    rw [hcix]
    apply List.mem_filterMap.mpr
    exact ⟨o, ho, by rw [hle, hoix]⟩

/-- Witness for C4: the dangling parent `水` of `火` produces no edge,
while the present parent produces exactly one. -/
theorem graph_edges_exactly_present_parents_witness :
    (buildEdges [⟨'木', [], [], [], []⟩, ⟨'火', ['木', '水'], [], [], []⟩]).length = 1
    ∧ (∃ oix cix w, indexOf [⟨'木', [], [], [], []⟩, ⟨'火', ['木', '水'], [], [], []⟩] '木'
          = some oix
        ∧ indexOf [⟨'木', [], [], [], []⟩, ⟨'火', ['木', '水'], [], [], []⟩] '火' = some cix
        ∧ (oix, cix, w) ∈ buildEdges [⟨'木', [], [], [], []⟩, ⟨'火', ['木', '水'], [], [], []⟩]) := by
  refine ⟨?_, ?_⟩
  · rw [(graph_edges_exactly_present_parents
      [⟨'木', [], [], [], []⟩, ⟨'火', ['木', '水'], [], [], []⟩]).1]
    decide
  · exact (graph_edges_exactly_present_parents
        [⟨'木', [], [], [], []⟩, ⟨'火', ['木', '水'], [], [], []⟩]).2.2
      ⟨'火', ['木', '水'], [], [], []⟩ (by decide) '木' (by decide) (by decide)

/-- Replacing the entry bound to a key makes the key look up the new
entry. -/
theorem lookup_map_replace (S : Store) (entry : Entry) :
    (lookupStore S entry.kanji).isSome = true →
    lookupStore (S.map fun x => if x.kanji == entry.kanji then entry else x)
      entry.kanji = some entry := by
  induction S with
  | nil => intro h; simp [lookupStore] at h
  | cons e t ih =>
    intro h
    simp only [lookupStore, List.map_cons, List.find?_cons] at h ⊢
    by_cases hk : (e.kanji == entry.kanji) = true
    · simp [hk]
    · rw [Bool.not_eq_true] at hk
      rw [if_neg (by simp [hk])]
      rw [hk] at h ⊢
      exact ih h

/-- C6: adding an entry whose kanji already exists reports the collision
as `Exists`, leaves the on-disk record sequence untouched, and still
replaces the old entry in the in-memory copy. -/
theorem insert_collision_no_persist (disk : List Entry) (entry : Entry)
    (h : (lookupStore (buildStore disk) entry.kanji).isSome = true) :
    (new_entry disk entry).result = Except.error (KError.Exists entry.kanji)
    ∧ (new_entry disk entry).disk = disk
    ∧ lookupStore (new_entry disk entry).mem entry.kanji = some entry := by
  obtain ⟨old, hold⟩ := Option.isSome_iff_exists.mp h
  simp only [new_entry, insertEntry, hold]
  exact ⟨trivial, trivial, lookup_map_replace _ _ h⟩

/-- Witness for C6: re-adding `山` with new readings collides, the disk
file keeps the old record, and memory holds the new one. -/
theorem insert_collision_no_persist_witness :
    (new_entry [⟨'山', [], [], [['さ','ん']], []⟩] ⟨'山', [], [], [['せ','ん']], []⟩).result
      = Except.error (KError.Exists '山')
    ∧ (new_entry [⟨'山', [], [], [['さ','ん']], []⟩] ⟨'山', [], [], [['せ','ん']], []⟩).disk
      = [⟨'山', [], [], [['さ','ん']], []⟩]
    ∧ lookupStore
        (new_entry [⟨'山', [], [], [['さ','ん']], []⟩] ⟨'山', [], [], [['せ','ん']], []⟩).mem '山'
      = some ⟨'山', [], [], [['せ','ん']], []⟩ :=
  insert_collision_no_persist [⟨'山', [], [], [['さ','ん']], []⟩]
    ⟨'山', [], [], [['せ','ん']], []⟩ (by decide)

/-- The persisted sequence is a permutation of the normalized entries. -/
theorem write_db_perm (S : Store) : (write_db S).Perm (S.map sortOya) :=
  (List.mergeSort_perm S _).map sortOya

/-- Normalization does not change the key. -/
theorem sortOya_kanji (e : Entry) : (sortOya e).kanji = e.kanji := rfl

/-- Persisting permutes the key sequence. -/
theorem keys_write_db_perm (S : Store) :
    ((write_db S).map (·.kanji)).Perm (S.map (·.kanji)) := by
  have h := (write_db_perm S).map (·.kanji)
  rw [List.map_map] at h
  have h2 : List.map ((·.kanji) ∘ sortOya) S = List.map (·.kanji) S :=
    List.map_congr_left fun e _ => rfl
  rw [h2] at h
  exact h

/-- Rebuilding the keyed map from a duplicate-free record sequence is the
identity. -/
theorem buildStore_go (l : List Entry) :
    ∀ acc : List Entry, ((acc ++ l).map (·.kanji)).Nodup →
    l.foldl (fun acc e => (insertEntry acc e).2) acc = acc ++ l := by
  induction l with
  | nil => intro acc _; simp
  | cons e t ih =>
    intro acc h
    rw [List.foldl_cons]
    have hnot : lookupStore acc e.kanji = none := by
      rw [lookupStore, List.find?_eq_none]
      intro x hx hbeq
      rw [beq_iff_eq] at hbeq
      rw [List.map_append, List.nodup_append] at h
      have hmem : e.kanji ∈ acc.map (·.kanji) := by
        rw [← hbeq]
        exact List.mem_map_of_mem _ hx
      exact h.2.2 hmem (by simp)
    rw [insertEntry, hnot]
    have := ih (acc ++ [e]) (by simpa using h)
    simpa using this

/-- `open_db`'s map build is the identity on duplicate-free sequences. -/
theorem buildStore_eq_self (l : List Entry) (h : NodupKeys l) : buildStore l = l := by
  have := buildStore_go l [] (by simpa [NodupKeys] using h)
  simpa [buildStore] using this

/-- In a duplicate-free store a lookup finds exactly the member entry with
the looked-up key. -/
theorem lookup_eq_some_iff (S : Store) (h : NodupKeys S) (k : Char) (e : Entry) :
    lookupStore S k = some e ↔ e ∈ S ∧ e.kanji = k := by
  constructor
  · intro hl
    have hp := List.find?_some hl
    rw [beq_iff_eq] at hp
    exact ⟨List.mem_of_find?_eq_some hl, hp⟩
  · rintro ⟨hm, rfl⟩
    induction S with
    | nil => cases hm
    | cons x t ih =>
      rw [lookupStore, List.find?_cons]
      rw [NodupKeys, List.map_cons, List.nodup_cons] at h
      rcases List.mem_cons.mp hm with rfl | hmt
      · simp
      · have hne : (x.kanji == e.kanji) = false := by
          rw [beq_eq_false_iff_ne]
          intro heq
          apply h.1
          rw [heq]
          exact List.mem_map_of_mem _ hmt
        rw [hne]
        exact ih h.2 hmt

/-- C3: saving a store with `write_db` and loading the result back yields
a store with the same key set and, per key, the entry with its `oya`
sorted and every other field unchanged. -/
theorem store_roundtrip (S : Store) (h : NodupKeys S) :
    (∀ k, (lookupStore (buildStore (write_db S)) k).isSome
        = (lookupStore S k).isSome)
    ∧ (∀ k e, lookupStore S k = some e →
        lookupStore (buildStore (write_db S)) k = some (sortOya e)) := by
  have hkeys := keys_write_db_perm S
  have hnod : NodupKeys (write_db S) := hkeys.nodup_iff.mpr h
  rw [buildStore_eq_self _ hnod]
  constructor
  · intro k
    have hiff : ((lookupStore (write_db S) k).isSome = true)
        ↔ ((lookupStore S k).isSome = true) := by
      rw [lookup_isSome_iff_mem_keys, lookup_isSome_iff_mem_keys]
      exact hkeys.mem_iff
    exact Bool.eq_iff_iff.mpr hiff
  · intro k e hl
    obtain ⟨hm, hk⟩ := (lookup_eq_some_iff S h k e).mp hl
    apply (lookup_eq_some_iff (write_db S) hnod k (sortOya e)).mpr
    refine ⟨?_, by rw [sortOya_kanji, hk]⟩
    exact (write_db_perm S).mem_iff.mpr (List.mem_map_of_mem _ hm)

/-- Witness for C3: a two-entry store with unsorted `oya` round-trips,
with `火`'s parents coming back sorted. -/
theorem store_roundtrip_witness :
    lookupStore
        (buildStore (write_db [⟨'火', ['知', '山'], [], [], []⟩, ⟨'山', [], [], [], []⟩])) '火'
      = some (sortOya ⟨'火', ['知', '山'], [], [], []⟩) :=
  (store_roundtrip [⟨'火', ['知', '山'], [], [], []⟩, ⟨'山', [], [], [], []⟩]
    (by unfold NodupKeys; decide)).2 '火' ⟨'火', ['知', '山'], [], [], []⟩ (by decide)


/-! ## Query termination (claims C2, C5) -/

theorem oyaStep_nil (S : Store) (f : Char → Option (Finset Nat)) :
    oyaStep S f [] = some ∅ := rfl

theorem oyaStep_cons (S : Store) (f : Char → Option (Finset Nat)) (o : Char)
    (t : List Char) :
    oyaStep S f (o :: t) =
      match oyaStep S f t with
      | none => none
      | some s =>
        match indexOf S o with
        | none => some s
        | some ix =>
          match f o with
          | none => none
          | some ps => some (insert ix ps ∪ s) := rfl

theorem all_parents_succ (S : Store) (fuel : Nat) (k : Char) :
    all_parents S (fuel + 1) k =
      match lookupStore S k with
      | none => some ∅
      | some e => oyaStep S (all_parents S fuel) e.oya := rfl

theorem childStep_cons (db : DB) (fc : Nat → Option (Finset Nat))
    (fp : Char → Option (Finset Nat)) (tix : Nat) (l : List Nat) :
    childStep db fc fp (tix :: l) =
      match childStep db fc fp l with
      | none => none
      | some s =>
        match fc tix with
        | none => none
        | some grand =>
          match otherParents db fp tix with
          | none => none
          | some others => some (grand ∪ others ∪ s) := rfl

theorem all_children_succ (db : DB) (fuel : Nat) (kix : Nat) :
    all_children db (fuel + 1) kix =
      match childStep db (all_children db fuel) (all_parents db.entries fuel)
          (childIxs db.edges kix) with
      | none => none
      | some s => some (insert kix s) := rfl

/-- Results of the `oya` fold are stable under pointwise-stable recursive
calls: less fuel completing means more fuel completes with the same set. -/
theorem oyaStep_mono (S : Store) {f g : Char → Option (Finset Nat)}
    (hfg : ∀ o s, f o = some s → g o = some s) :
    ∀ (l : List Char) (s : Finset Nat),
      oyaStep S f l = some s → oyaStep S g l = some s := by
  intro l
  induction l with
  | nil => intro s hs; exact hs
  | cons o t ih =>
    intro s hs
    rw [oyaStep_cons] at hs ⊢
    cases ht : oyaStep S f t with
    | none => rw [ht] at hs; exact Option.noConfusion hs
    | some s0 =>
      rw [ht] at hs
      rw [ih s0 ht]
      cases hix : indexOf S o with
      | none => rw [hix] at hs; exact hs
      | some ix =>
        rw [hix] at hs
        cases hf : f o with
        | none => rw [hf] at hs; exact Option.noConfusion hs
        | some ps =>
          rw [hf] at hs
          rw [hfg o ps hf]
          exact hs

/-- A completed `all_parents` result is stable under extra fuel. -/
theorem all_parents_mono (S : Store) :
    ∀ {f f' : Nat}, f ≤ f' → ∀ {k : Char} {s : Finset Nat},
      all_parents S f k = some s → all_parents S f' k = some s := by
  intro f
  induction f with
  | zero => intro f' _ k s h; cases h
  | succ f ih =>
    intro f' hle k s h
    cases f' with
    | zero => omega
    | succ f'' =>
      have hf : f ≤ f'' := by omega
      rw [all_parents_succ] at h ⊢
      cases hl : lookupStore S k with
      | none => rw [hl] at h; exact h
      | some e =>
        rw [hl] at h
        exact oyaStep_mono S (fun o s' hs' => ih hf hs') e.oya s h

theorem otherParents_mono (db : DB) {fp gp : Char → Option (Finset Nat)}
    (hpm : ∀ o s, fp o = some s → gp o = some s) :
    ∀ (tix : Nat) (s : Finset Nat),
      otherParents db fp tix = some s → otherParents db gp tix = some s := by
  intro tix s h
  unfold otherParents at h ⊢
  cases he : db.entry tix with
  | none => rw [he] at h; exact h
  | some e =>
    rw [he] at h
    exact oyaStep_mono db.entries hpm e.oya s h

theorem childStep_mono (db : DB) {fc gc : Nat → Option (Finset Nat)}
    {fp gp : Char → Option (Finset Nat)}
    (hcm : ∀ t s, fc t = some s → gc t = some s)
    (hpm : ∀ o s, fp o = some s → gp o = some s) :
    ∀ (l : List Nat) (s : Finset Nat),
      childStep db fc fp l = some s → childStep db gc gp l = some s := by
  intro l
  induction l with
  | nil => intro s hs; exact hs
  | cons tix t ih =>
    intro s hs
    rw [childStep_cons] at hs ⊢
    cases ht : childStep db fc fp t with
    | none => rw [ht] at hs; exact Option.noConfusion hs
    | some s0 =>
      rw [ht] at hs
      rw [ih s0 ht]
      cases hg : fc tix with
      | none => rw [hg] at hs; exact Option.noConfusion hs
      | some grand =>
        rw [hg] at hs
        rw [hcm tix grand hg]
        cases hop : otherParents db fp tix with
        | none => rw [hop] at hs; exact Option.noConfusion hs
        | some others =>
          rw [hop] at hs
          rw [otherParents_mono db hpm tix others hop]
          exact hs

/-- A completed `all_children` result is stable under extra fuel. -/
theorem all_children_mono (db : DB) :
    ∀ {f f' : Nat}, f ≤ f' → ∀ {kix : Nat} {s : Finset Nat},
      all_children db f kix = some s → all_children db f' kix = some s := by
  intro f
  induction f with
  | zero => intro f' _ kix s h; cases h
  | succ f ih =>
    intro f' hle kix s h
    cases f' with
    | zero => omega
    | succ f'' =>
      have hf : f ≤ f'' := by omega
      rw [all_children_succ] at h ⊢
      cases hcs : childStep db (all_children db f) (all_parents db.entries f)
          (childIxs db.edges kix) with
      | none => rw [hcs] at h; exact Option.noConfusion h
      | some s0 =>
        rw [hcs] at h
        rw [childStep_mono db (fun t s' hs' => ih hf hs')
          (fun o s' hs' => all_parents_mono db.entries hf hs') _ s0 hcs]
        exact h

/-- If every present parent in the list has a terminating ancestor query,
the whole fold terminates at some fuel. -/
theorem oyaStep_total (S : Store) (l : List Char)
    (h : ∀ o ∈ l, (indexOf S o).isSome = true →
      ∃ f s, all_parents S f o = some s) :
    ∃ f s, oyaStep S (all_parents S f) l = some s := by
  induction l with
  | nil => exact ⟨0, ∅, rfl⟩
  | cons o t ih =>
    obtain ⟨f1, s1, h1⟩ := ih fun o' ho' h' => h o' (List.mem_cons_of_mem o ho') h'
    cases hix : indexOf S o with
    | none =>
      refine ⟨f1, s1, ?_⟩
      rw [oyaStep_cons, h1, hix]
    | some ix =>
      obtain ⟨f2, s2, h2⟩ := h o (List.mem_cons_self o t) (by rw [hix]; rfl)
      refine ⟨max f1 f2, insert ix s2 ∪ s1, ?_⟩
      have h1' : oyaStep S (all_parents S (max f1 f2)) t = some s1 :=
        oyaStep_mono S (fun o' s' hs' =>
          all_parents_mono S (Nat.le_max_left f1 f2) hs') t s1 h1
      have h2' : all_parents S (max f1 f2) o = some s2 :=
        all_parents_mono S (Nat.le_max_right f1 f2) h2
      rw [oyaStep_cons, h1', hix, h2']

/-- `all_parents` terminates on every kanji when the parent-step relation
is well-founded. -/
theorem all_parents_total (S : Store) (hw : WellFounded (oyaRel S)) (k : Char) :
    ∃ f s, all_parents S f k = some s := by
  refine @WellFounded.induction _ _ hw
    (fun k => ∃ f s, all_parents S f k = some s) k fun x ihx => ?_
  cases hl : lookupStore S x with
  | none => exact ⟨1, ∅, by rw [show (1 : Nat) = 0 + 1 from rfl, all_parents_succ, hl]⟩
  | some e =>
    obtain ⟨F, s, hF⟩ := oyaStep_total S e.oya fun o ho hidx => ihx o ⟨e, hl, ho, hidx⟩
    exact ⟨F + 1, s, by rw [all_parents_succ, hl]; exact hF⟩

/-- A membership in the outgoing-neighbour list is an edge. -/
theorem childIxs_mem {edges : List (Nat × Nat × Inherit)} {kix t : Nat}
    (ht : t ∈ childIxs edges kix) : ∃ w, (kix, t, w) ∈ edges := by
  obtain ⟨q, hq, hqt⟩ := List.mem_filterMap.mp ht
  obtain ⟨a, b, w⟩ := q
  by_cases hx : (a == kix) = true
  · rw [if_pos hx] at hqt
    rw [beq_iff_eq] at hx
    subst hx
    injection hqt with hbt
    subst hbt
    exact ⟨w, hq⟩
  · rw [if_neg hx] at hqt
    exact Option.noConfusion hqt

theorem childStep_total (db : DB) (l : List Nat)
    (hc : ∀ t ∈ l, ∃ f s, all_children db f t = some s)
    (hp : ∀ k, ∃ f s, all_parents db.entries f k = some s) :
    ∃ f s, childStep db (all_children db f) (all_parents db.entries f) l = some s := by
  induction l with
  | nil => exact ⟨0, ∅, rfl⟩
  | cons tix t ih =>
    obtain ⟨f1, s1, h1⟩ := ih fun t' ht' => hc t' (List.mem_cons_of_mem tix ht')
    obtain ⟨f2, s2, h2⟩ := hc tix (List.mem_cons_self tix t)
    have hop : ∃ f s, otherParents db (all_parents db.entries f) tix = some s := by
      cases he : db.entry tix with
      | none => exact ⟨0, ∅, by unfold otherParents; rw [he]⟩
      | some e =>
        obtain ⟨f3, s3, h3⟩ := oyaStep_total db.entries e.oya fun o _ _ => hp o
        exact ⟨f3, s3, by unfold otherParents; rw [he]; exact h3⟩
    obtain ⟨f3, s3, h3⟩ := hop
    have hm1 : f1 ≤ max f1 (max f2 f3) := Nat.le_max_left _ _
    have hm2 : f2 ≤ max f1 (max f2 f3) :=
      le_trans (Nat.le_max_left f2 f3) (Nat.le_max_right _ _)
    have hm3 : f3 ≤ max f1 (max f2 f3) :=
      le_trans (Nat.le_max_right f2 f3) (Nat.le_max_right _ _)
    refine ⟨max f1 (max f2 f3), s2 ∪ s3 ∪ s1, ?_⟩
    rw [childStep_cons,
      childStep_mono db (fun t' s' hs' => all_children_mono db hm1 hs')
        (fun o s' hs' => all_parents_mono db.entries hm1 hs') t s1 h1,
      all_children_mono db hm2 h2,
      otherParents_mono db (fun o s' hs' => all_parents_mono db.entries hm3 hs') tix s3 h3]

/-- `all_children` terminates on every node when both step relations are
well-founded. -/
theorem all_children_total (db : DB) (hw : WellFounded (childRel db))
    (hp : ∀ k, ∃ f s, all_parents db.entries f k = some s) (kix : Nat) :
    ∃ f s, all_children db f kix = some s := by
  refine @WellFounded.induction _ _ hw
    (fun kix => ∃ f s, all_children db f kix = some s) kix fun x ihx => ?_
  have hc : ∀ t ∈ childIxs db.edges x, ∃ f s, all_children db f t = some s :=
    fun t ht => ihx t (childIxs_mem ht)
  obtain ⟨F, s, hF⟩ := childStep_total db (childIxs db.edges x) hc hp
  exact ⟨F + 1, insert x s, by rw [all_children_succ, hF]⟩

/-- C2 (amended): both queries terminate on every store whose parent-step
relation (and induced child relation) is well-founded, i.e. on every
acyclic input the builder can produce. -/
theorem queries_terminate_on_acyclic (S : Store)
    (hp : WellFounded (oyaRel S)) (hc : WellFounded (childRel (DB.new S))) :
    (∀ k, ∃ f s, all_parents S f k = some s)
    ∧ (∀ kix, ∃ f s, all_children (DB.new S) f kix = some s) := by
  have h1 : ∀ k, ∃ f s, all_parents S f k = some s :=
    fun k => all_parents_total S hp k
  exact ⟨h1, fun kix => all_children_total (DB.new S) hc (fun k => h1 k) kix⟩

/-- The empty store has no parent steps. -/
theorem wf_oyaRel_nil : WellFounded (oyaRel ([] : Store)) := by
  constructor
  intro a
  constructor
  intro y hy
  obtain ⟨e, he, _, _⟩ := hy
  exact Option.noConfusion he

/-- The empty graph has no edges. -/
theorem wf_childRel_nil : WellFounded (childRel (DB.new ([] : Store))) := by
  constructor
  intro a
  constructor
  intro y hy
  obtain ⟨w, hw⟩ := hy
  exact absurd hw (List.not_mem_nil _)

/-- Witness for C2 (amended): on the empty store, trivially acyclic, both
queries terminate on every input kanji and node. -/
theorem queries_terminate_on_acyclic_witness :
    (∀ k, ∃ f s, all_parents ([] : Store) f k = some s)
    ∧ (∀ kix, ∃ f s, all_children (DB.new ([] : Store)) f kix = some s) :=
  queries_terminate_on_acyclic [] wf_oyaRel_nil wf_childRel_nil

/-- C2 (counterexample): on the store whose single entry `口` lists itself
as its own parent — an input the builder accepts, producing a self-edge —
neither `all_parents` nor `all_children` completes at any fuel: the Rust
recursion never terminates, contradicting the claim that the queries
terminate on cyclic inputs. -/
theorem queries_diverge_on_self_cycle :
    (∀ f, all_parents selfStore f '口' = none)
    ∧ (∀ f, all_children (DB.new selfStore) f 0 = none) := by
  constructor
  · intro f
    induction f with
    | zero => rfl
    | succ f ih =>
      rw [all_parents_succ,
        show lookupStore selfStore '口' = some ⟨'口', ['口'], [], [], []⟩ from rfl]
      show oyaStep selfStore (all_parents selfStore f) ['口'] = none
      rw [oyaStep_cons, oyaStep_nil,
        show indexOf selfStore '口' = some 0 from rfl, ih]
  · intro f
    induction f with
    | zero => rfl
    | succ f ih =>
      rw [all_children_succ,
        show childIxs (DB.new selfStore).edges 0 = [0] from rfl]
      rw [childStep_cons,
        show childStep (DB.new selfStore) (all_children (DB.new selfStore) f)
          (all_parents (DB.new selfStore).entries f) [] = some (∅ : Finset Nat) from rfl,
        ih]

/-- C5: for a three-generation chain a→b→c of pairwise-distinct kanji
(entered in that order, so the node indices are 0, 1, 2): the descendants
query on the root node terminates (fuel 4 suffices; by
`all_children_mono` the value is the same at any larger fuel) with a set
containing {0, 1, 2} — the starting node included — and the ancestors
query on the leaf terminates with exactly {0, 1}, the leaf itself
excluded. -/
theorem chain_descendants_ancestors (a b c : Char)
    (hab : a ≠ b) (hac : a ≠ c) (hbc : b ≠ c) :
    (∃ s, all_children (DB.new (chainStore a b c)) 4 0 = some s
      ∧ {0, 1, 2} ⊆ s ∧ 0 ∈ s)
    ∧ (∃ s, all_parents (chainStore a b c) 3 c = some s ∧ s = {0, 1} ∧ 2 ∉ s) := by
  have eqAB : (a == b) = false := by simp [hab]
  have eqAC : (a == c) = false := by simp [hac]
  have eqBC : (b == c) = false := by simp [hbc]
  have lookA : lookupStore [⟨a, [], [], [], []⟩, ⟨b, [a], [], [], []⟩, ⟨c, [b], [], [], []⟩] a = some ⟨a, [], [], [], []⟩ := by
    simp [lookupStore]
  have lookB : lookupStore [⟨a, [], [], [], []⟩, ⟨b, [a], [], [], []⟩, ⟨c, [b], [], [], []⟩] b = some ⟨b, [a], [], [], []⟩ := by
    simp [lookupStore, List.find?_cons, eqAB]
  have lookC : lookupStore [⟨a, [], [], [], []⟩, ⟨b, [a], [], [], []⟩, ⟨c, [b], [], [], []⟩] c = some ⟨c, [b], [], [], []⟩ := by
    simp [lookupStore, List.find?_cons, eqAC, eqBC]
  have idxA : indexOf [⟨a, [], [], [], []⟩, ⟨b, [a], [], [], []⟩, ⟨c, [b], [], [], []⟩] a = some 0 := by
    simp [indexOf, List.findIdx?_cons]
  have idxB : indexOf [⟨a, [], [], [], []⟩, ⟨b, [a], [], [], []⟩, ⟨c, [b], [], [], []⟩] b = some 1 := by
    simp [indexOf, List.findIdx?_cons, eqAB]
  have idxC : indexOf [⟨a, [], [], [], []⟩, ⟨b, [a], [], [], []⟩, ⟨c, [b], [], [], []⟩] c = some 2 := by
    simp [indexOf, List.findIdx?_cons, eqAC, eqBC]
  have apA : all_parents [⟨a, [], [], [], []⟩, ⟨b, [a], [], [], []⟩, ⟨c, [b], [], [], []⟩] 1 a = some ∅ := by
    rw [all_parents_succ, lookA]
    rfl
  have apA2 : all_parents [⟨a, [], [], [], []⟩, ⟨b, [a], [], [], []⟩, ⟨c, [b], [], [], []⟩] 2 a = some ∅ :=
    all_parents_mono _ (by omega) apA
  have apB : all_parents [⟨a, [], [], [], []⟩, ⟨b, [a], [], [], []⟩, ⟨c, [b], [], [], []⟩] 2 b = some {0} := by
    rw [all_parents_succ, lookB]
    show oyaStep [⟨a, [], [], [], []⟩, ⟨b, [a], [], [], []⟩, ⟨c, [b], [], [], []⟩] (all_parents [⟨a, [], [], [], []⟩, ⟨b, [a], [], [], []⟩, ⟨c, [b], [], [], []⟩] 1) [a] = some {0}
    rw [oyaStep_cons, oyaStep_nil, idxA, apA]
    simp
  have apC : all_parents [⟨a, [], [], [], []⟩, ⟨b, [a], [], [], []⟩, ⟨c, [b], [], [], []⟩] 3 c = some {0, 1} := by
    rw [all_parents_succ, lookC]
    show oyaStep [⟨a, [], [], [], []⟩, ⟨b, [a], [], [], []⟩, ⟨c, [b], [], [], []⟩] (all_parents [⟨a, [], [], [], []⟩, ⟨b, [a], [], [], []⟩, ⟨c, [b], [], [], []⟩] 2) [b] = some {0, 1}
    rw [oyaStep_cons, oyaStep_nil, idxB, apB]
    simp [Finset.pair_comm]
  have edges : buildEdges [⟨a, [], [], [], []⟩, ⟨b, [a], [], [], []⟩, ⟨c, [b], [], [], []⟩] = [(0, 1, Inherit.None), (1, 2, Inherit.None)] := by
    simp [buildEdges, lookA, lookB, idxA, idxB, idxC, edgeInherit]
  have ent1 : DB.entry (DB.new [⟨a, [], [], [], []⟩, ⟨b, [a], [], [], []⟩, ⟨c, [b], [], [], []⟩]) 1 = some ⟨b, [a], [], [], []⟩ := by
    show lookupStore [⟨a, [], [], [], []⟩, ⟨b, [a], [], [], []⟩, ⟨c, [b], [], [], []⟩] b = some ⟨b, [a], [], [], []⟩
    exact lookB
  have op1 : otherParents (DB.new [⟨a, [], [], [], []⟩, ⟨b, [a], [], [], []⟩, ⟨c, [b], [], [], []⟩]) (all_parents [⟨a, [], [], [], []⟩, ⟨b, [a], [], [], []⟩, ⟨c, [b], [], [], []⟩] 2) 1 = some {0} := by
    unfold otherParents
    rw [ent1]
    show oyaStep [⟨a, [], [], [], []⟩, ⟨b, [a], [], [], []⟩, ⟨c, [b], [], [], []⟩] (all_parents [⟨a, [], [], [], []⟩, ⟨b, [a], [], [], []⟩, ⟨c, [b], [], [], []⟩] 2) [a] = some {0}
    rw [oyaStep_cons, oyaStep_nil, idxA, apA2]
    simp
  have op1' : otherParents (DB.new [⟨a, [], [], [], []⟩, ⟨b, [a], [], [], []⟩, ⟨c, [b], [], [], []⟩]) (all_parents [⟨a, [], [], [], []⟩, ⟨b, [a], [], [], []⟩, ⟨c, [b], [], [], []⟩] 3) 1 = some {0} :=
    otherParents_mono _ (fun o s hs => all_parents_mono _ (by omega) hs) 1 _ op1
  have ent2 : DB.entry (DB.new [⟨a, [], [], [], []⟩, ⟨b, [a], [], [], []⟩, ⟨c, [b], [], [], []⟩]) 2 = some ⟨c, [b], [], [], []⟩ := by
    show lookupStore [⟨a, [], [], [], []⟩, ⟨b, [a], [], [], []⟩, ⟨c, [b], [], [], []⟩] c = some ⟨c, [b], [], [], []⟩
    exact lookC
  have op2 : otherParents (DB.new [⟨a, [], [], [], []⟩, ⟨b, [a], [], [], []⟩, ⟨c, [b], [], [], []⟩]) (all_parents [⟨a, [], [], [], []⟩, ⟨b, [a], [], [], []⟩, ⟨c, [b], [], [], []⟩] 2) 2 = some {0, 1} := by
    unfold otherParents
    rw [ent2]
    show oyaStep [⟨a, [], [], [], []⟩, ⟨b, [a], [], [], []⟩, ⟨c, [b], [], [], []⟩] (all_parents [⟨a, [], [], [], []⟩, ⟨b, [a], [], [], []⟩, ⟨c, [b], [], [], []⟩] 2) [b] = some {0, 1}
    rw [oyaStep_cons, oyaStep_nil, idxB, apB]
    simp [Finset.pair_comm]
  have ac2 : all_children (DB.new [⟨a, [], [], [], []⟩, ⟨b, [a], [], [], []⟩, ⟨c, [b], [], [], []⟩]) 1 2 = some {2} := by
    rw [all_children_succ, show (DB.new [⟨a, [], [], [], []⟩, ⟨b, [a], [], [], []⟩, ⟨c, [b], [], [], []⟩]).edges = buildEdges [⟨a, [], [], [], []⟩, ⟨b, [a], [], [], []⟩, ⟨c, [b], [], [], []⟩] from rfl, edges]
    rfl
  have ac2' : all_children (DB.new [⟨a, [], [], [], []⟩, ⟨b, [a], [], [], []⟩, ⟨c, [b], [], [], []⟩]) 2 2 = some {2} :=
    all_children_mono _ (by omega) ac2
  have ac1 : all_children (DB.new [⟨a, [], [], [], []⟩, ⟨b, [a], [], [], []⟩, ⟨c, [b], [], [], []⟩]) 3 1 = some (insert 1 ({2} ∪ {0, 1} ∪ ∅)) := by
    rw [all_children_succ, show (DB.new [⟨a, [], [], [], []⟩, ⟨b, [a], [], [], []⟩, ⟨c, [b], [], [], []⟩]).edges = buildEdges [⟨a, [], [], [], []⟩, ⟨b, [a], [], [], []⟩, ⟨c, [b], [], [], []⟩] from rfl, edges]
    rw [show childIxs [(0, 1, Inherit.None), (1, 2, Inherit.None)] 1 = [2] from by decide]
    rw [childStep_cons]
    rw [show childStep (DB.new [⟨a, [], [], [], []⟩, ⟨b, [a], [], [], []⟩, ⟨c, [b], [], [], []⟩]) (all_children (DB.new [⟨a, [], [], [], []⟩, ⟨b, [a], [], [], []⟩, ⟨c, [b], [], [], []⟩]) 2)
      (all_parents (DB.new [⟨a, [], [], [], []⟩, ⟨b, [a], [], [], []⟩, ⟨c, [b], [], [], []⟩]).entries 2) [] = some (∅ : Finset Nat) from rfl]
    rw [ac2']
    rw [show (DB.new [⟨a, [], [], [], []⟩, ⟨b, [a], [], [], []⟩, ⟨c, [b], [], [], []⟩]).entries = [⟨a, [], [], [], []⟩, ⟨b, [a], [], [], []⟩, ⟨c, [b], [], [], []⟩] from rfl]
    rw [op2]
  have ac0 : all_children (DB.new [⟨a, [], [], [], []⟩, ⟨b, [a], [], [], []⟩, ⟨c, [b], [], [], []⟩]) 4 0
      = some (insert 0 (insert 1 ({2} ∪ {0, 1} ∪ ∅) ∪ {0} ∪ ∅)) := by
    rw [all_children_succ, show (DB.new [⟨a, [], [], [], []⟩, ⟨b, [a], [], [], []⟩, ⟨c, [b], [], [], []⟩]).edges = buildEdges [⟨a, [], [], [], []⟩, ⟨b, [a], [], [], []⟩, ⟨c, [b], [], [], []⟩] from rfl, edges]
    rw [show childIxs [(0, 1, Inherit.None), (1, 2, Inherit.None)] 0 = [1] from by decide]
    rw [childStep_cons]
    rw [show childStep (DB.new [⟨a, [], [], [], []⟩, ⟨b, [a], [], [], []⟩, ⟨c, [b], [], [], []⟩]) (all_children (DB.new [⟨a, [], [], [], []⟩, ⟨b, [a], [], [], []⟩, ⟨c, [b], [], [], []⟩]) 3)
      (all_parents (DB.new [⟨a, [], [], [], []⟩, ⟨b, [a], [], [], []⟩, ⟨c, [b], [], [], []⟩]).entries 3) [] = some (∅ : Finset Nat) from rfl]
    rw [ac1]
    rw [show (DB.new [⟨a, [], [], [], []⟩, ⟨b, [a], [], [], []⟩, ⟨c, [b], [], [], []⟩]).entries = [⟨a, [], [], [], []⟩, ⟨b, [a], [], [], []⟩, ⟨c, [b], [], [], []⟩] from rfl]
    rw [op1']
  exact ⟨⟨_, ac0, by decide, by decide⟩, ⟨{0, 1}, apC, rfl, by decide⟩⟩

/-- Witness for C5: the chain instantiated at 一, 二, 三. -/
theorem chain_descendants_ancestors_witness :
    (∃ s, all_children (DB.new (chainStore '一' '二' '三')) 4 0 = some s
      ∧ {0, 1, 2} ⊆ s ∧ 0 ∈ s)
    ∧ (∃ s, all_parents (chainStore '一' '二' '三') 3 '三' = some s
      ∧ s = {0, 1} ∧ 2 ∉ s) :=
  chain_descendants_ancestors '一' '二' '三' (by decide) (by decide) (by decide)

/-! ## Grouped rendering (claim C9) -/

theorem lexLe_refl (a : List Char) : lexLe a a = true := by
  induction a with
  | nil => rfl
  | cons x xs ih =>
    rw [lexLe]
    rw [if_neg (lt_irrefl x), if_pos rfl]
    exact ih

theorem lexLe_total (a : List Char) : ∀ b, (lexLe a b || lexLe b a) = true := by
  induction a with
  | nil => intro b; rfl
  | cons x xs ih =>
    intro b
    cases b with
    | nil => rfl
    | cons y ys =>
      rw [lexLe, lexLe]
      rcases lt_trichotomy x y with h | h | h
      · rw [if_pos h]
        rfl
      · subst h
        rw [if_neg (lt_irrefl x), if_pos rfl, if_neg (lt_irrefl x), if_pos rfl]
        exact ih ys
      · rw [if_neg (asymm h), if_neg (ne_of_gt h), if_pos h]
        simp

theorem lexLe_trans (a : List Char) :
    ∀ b c, lexLe a b = true → lexLe b c = true → lexLe a c = true := by
  induction a with
  | nil => intro b c _ _; rfl
  | cons x xs ih =>
    intro b c h1 h2
    cases b with
    | nil => rw [lexLe] at h1; cases h1
    | cons y ys =>
      cases c with
      | nil => rw [lexLe] at h2; cases h2
      | cons z zs =>
        rw [lexLe] at h1 h2 ⊢
        by_cases hxy : x < y
        · rw [if_pos hxy] at h1
          by_cases hyz : y < z
          · rw [if_pos (lt_trans hxy hyz)]
          · by_cases hyz' : y = z
            · subst hyz'
              rw [if_pos hxy]
            · rw [if_neg hyz, if_neg hyz'] at h2
              cases h2
        · rw [if_neg hxy] at h1
          by_cases hxy' : x = y
          · subst hxy'
            rw [if_pos rfl] at h1
            by_cases hxz : x < z
            · rw [if_pos hxz]
            · rw [if_neg hxz] at h2 ⊢
              by_cases hxz' : x = z
              · rw [if_pos hxz'] at h2 ⊢
                exact ih ys zs h1 h2
              · rw [if_neg hxz'] at h2
                cases h2
          · rw [if_neg hxy'] at h1
            cases h1

theorem optLe_refl (a : Option Reading) : optLe a a = true := by
  cases a with
  | none => rfl
  | some r => exact lexLe_refl r

theorem optLe_total (a b : Option Reading) : (optLe a b || optLe b a) = true := by
  cases a with
  | none => rfl
  | some r =>
    cases b with
    | none => rfl
    | some t => exact lexLe_total r t

theorem optLe_trans (a b c : Option Reading) :
    optLe a b = true → optLe b c = true → optLe a c = true := by
  cases a with
  | none => intro _ _; rfl
  | some r =>
    cases b with
    | none => intro h _; cases h
    | some t =>
      cases c with
      | none => intro _ h; cases h
      | some u => exact lexLe_trans r t u

theorem runs_cons_nil {α κ : Type} [DecidableEq κ] (key : α → κ) {xs : List α}
    (x : α) (h : runs key xs = []) :
    runs key (x :: xs) = [(key x, [x])] := by
  rw [runs, h]

theorem runs_cons_cons {α κ : Type} [DecidableEq κ] (key : α → κ) {xs : List α}
    {kk : κ} {g : List α} {rest : List (κ × List α)}
    (x : α) (h : runs key xs = (kk, g) :: rest) :
    runs key (x :: xs) =
      if key x = kk then (kk, x :: g) :: rest
      else (key x, [x]) :: (kk, g) :: rest := by
  rw [runs, h]

theorem runs_flatten {α κ : Type} [DecidableEq κ] (key : α → κ) (l : List α) :
    (runs key l).flatMap (·.2) = l := by
  induction l with
  | nil => rfl
  | cons x xs ih =>
    cases hr : runs key xs with
    | nil =>
      rw [hr] at ih
      simp at ih
      rw [runs_cons_nil key x hr]
      simp [ih]
    | cons p rest =>
      obtain ⟨kk, g⟩ := p
      rw [hr] at ih
      rw [runs_cons_cons key x hr]
      by_cases hk : key x = kk
      · rw [if_pos hk]
        simpa using ih
      · rw [if_neg hk]
        simpa using ih

theorem runs_ne_nil {α κ : Type} [DecidableEq κ] (key : α → κ) (l : List α) :
    ∀ p ∈ runs key l, p.2 ≠ [] := by
  induction l with
  | nil => intro p hp; cases hp
  | cons x xs ih =>
    intro p hp
    cases hr : runs key xs with
    | nil =>
      rw [runs_cons_nil key x hr] at hp
      rcases List.mem_singleton.mp hp with rfl
      simp
    | cons q rest =>
      obtain ⟨kk, g⟩ := q
      rw [runs_cons_cons key x hr] at hp
      by_cases hk : key x = kk
      · rw [if_pos hk] at hp
        rcases List.mem_cons.mp hp with rfl | hp'
        · simp
        · exact ih p (hr ▸ List.mem_cons_of_mem _ hp')
      · rw [if_neg hk] at hp
        rcases List.mem_cons.mp hp with rfl | hp'
        · simp
        · exact ih p (hr ▸ hp')

theorem runs_key {α κ : Type} [DecidableEq κ] (key : α → κ) (l : List α) :
    ∀ p ∈ runs key l, ∀ x ∈ p.2, key x = p.1 := by
  induction l with
  | nil => intro p hp; cases hp
  | cons x xs ih =>
    intro p hp y hy
    cases hr : runs key xs with
    | nil =>
      rw [runs_cons_nil key x hr] at hp
      rcases List.mem_singleton.mp hp with rfl
      rcases List.mem_singleton.mp hy with rfl
      rfl
    | cons q rest =>
      obtain ⟨kk, g⟩ := q
      rw [runs_cons_cons key x hr] at hp
      by_cases hk : key x = kk
      · rw [if_pos hk] at hp
        rcases List.mem_cons.mp hp with rfl | hp'
        · rcases List.mem_cons.mp hy with rfl | hy'
          · exact hk
          · exact ih (kk, g) (hr ▸ List.mem_cons_self _ _) y hy'
        · exact ih p (hr ▸ List.mem_cons_of_mem _ hp') y hy
      · rw [if_neg hk] at hp
        rcases List.mem_cons.mp hp with rfl | hp'
        · rcases List.mem_singleton.mp hy with rfl
          rfl
        · exact ih p (hr ▸ hp') y hy

theorem runs_elem_mem {α κ : Type} [DecidableEq κ] (key : α → κ) (l : List α) :
    ∀ p ∈ runs key l, ∀ x ∈ p.2, x ∈ l := by
  induction l with
  | nil => intro p hp; cases hp
  | cons x xs ih =>
    intro p hp y hy
    cases hr : runs key xs with
    | nil =>
      rw [runs_cons_nil key x hr] at hp
      rcases List.mem_singleton.mp hp with rfl
      rcases List.mem_singleton.mp hy with rfl
      exact List.mem_cons_self _ _
    | cons q rest =>
      obtain ⟨kk, g⟩ := q
      rw [runs_cons_cons key x hr] at hp
      by_cases hk : key x = kk
      · rw [if_pos hk] at hp
        rcases List.mem_cons.mp hp with rfl | hp'
        · rcases List.mem_cons.mp hy with rfl | hy'
          · exact List.mem_cons_self _ _
          · exact List.mem_cons_of_mem _
              (ih (kk, g) (hr ▸ List.mem_cons_self _ _) y hy')
        · exact List.mem_cons_of_mem _
            (ih p (hr ▸ List.mem_cons_of_mem _ hp') y hy)
      · rw [if_neg hk] at hp
        rcases List.mem_cons.mp hp with rfl | hp'
        · rcases List.mem_singleton.mp hy with rfl
          exact List.mem_cons_self _ _
        · exact List.mem_cons_of_mem _ (ih p (hr ▸ hp') y hy)

theorem runs_pairwise {α κ : Type} [DecidableEq κ] (key : α → κ)
    (R : κ → κ → Prop) (l : List α)
    (hm : List.Pairwise (fun a b => R (key a) (key b)) l) :
    List.Pairwise (fun p q => R p.1 q.1) (runs key l) := by
  induction l with
  | nil => exact List.Pairwise.nil
  | cons x xs ih =>
    obtain ⟨hx, hm'⟩ := List.pairwise_cons.mp hm
    have ihr := ih hm'
    cases hr : runs key xs with
    | nil =>
      rw [runs_cons_nil key x hr]
      simp
    | cons q rest =>
      obtain ⟨kk, g⟩ := q
      rw [hr] at ihr
      obtain ⟨hq, hrest⟩ := List.pairwise_cons.mp ihr
      rw [runs_cons_cons key x hr]
      by_cases hk : key x = kk
      · rw [if_pos hk]
        exact List.pairwise_cons.mpr ⟨hq, hrest⟩
      · rw [if_neg hk]
        refine List.pairwise_cons.mpr ⟨?_, List.pairwise_cons.mpr ⟨hq, hrest⟩⟩
        intro p hp
        have hpruns : p ∈ runs key xs := hr ▸ hp
        have hne : p.2 ≠ [] := runs_ne_nil key xs p hpruns
        obtain ⟨z, hz⟩ : ∃ z, z ∈ p.2 := by
          cases hgp : p.2 with
          | nil => exact absurd hgp hne
          | cons z zs => exact ⟨z, List.mem_cons_self _ _⟩
        have hzl : z ∈ xs := runs_elem_mem key xs p hpruns z hz
        have hzk : key z = p.1 := runs_key key xs p hpruns z hz
        exact hzk ▸ hx z hzl


theorem flatMap_flat_nodes (f : NodeInfo → Bool) (m : List NodeInfo) :
    ((m.map fun n => DotItem.flat n (f n)).flatMap itemNodes) = m := by
  induction m with
  | nil => rfl
  | cons n t ih => simp only [List.map_cons, List.flatMap_cons, itemNodes, ih]; rfl

theorem emitGroup_nodes (ch : List Char) (g : Option Reading × List NodeInfo) :
    (emitGroup ch g).flatMap itemNodes = g.2 := by
  obtain ⟨yo, m⟩ := g
  cases yo with
  | none => exact flatMap_flat_nodes _ m
  | some y =>
    simp only [emitGroup]
    by_cases hlen : m.length > 1
    · rw [if_pos hlen]
      simp only [List.flatMap_cons, List.flatMap_nil, itemNodes, List.append_nil,
        List.map_map]
      have h : List.map ((fun (x : NodeInfo × Bool) => x.1) ∘
            fun n => (n, ch.contains n.k)) m = List.map id m :=
        List.map_congr_left fun n _ => rfl
      rw [h, List.map_id]
    · rw [if_neg hlen]
      exact flatMap_flat_nodes _ m

theorem emitGroup_key (ch : List Char) (g : Option Reading × List NodeInfo)
    (hk : ∀ x ∈ g.2, x.yomi = g.1) :
    ∀ i ∈ emitGroup ch g, itemKey i = g.1 := by
  obtain ⟨yo, m⟩ := g
  intro i hi
  cases yo with
  | none =>
    simp only [emitGroup] at hi
    obtain ⟨n, hn, rfl⟩ := List.mem_map.mp hi
    exact hk n hn
  | some y =>
    simp only [emitGroup] at hi
    by_cases hlen : m.length > 1
    · rw [if_pos hlen] at hi
      rcases List.mem_singleton.mp hi with rfl
      rfl
    · rw [if_neg hlen] at hi
      obtain ⟨n, hn, rfl⟩ := List.mem_map.mp hi
      exact hk n hn

theorem emitGroup_cluster (ch : List Char) (g : Option Reading × List NodeInfo)
    (y : Reading) (ms : List (NodeInfo × Bool))
    (hi : DotItem.cluster y ms ∈ emitGroup ch g) :
    g.1 = some y ∧ 1 < g.2.length
      ∧ ms = g.2.map fun n => (n, ch.contains n.k) := by
  obtain ⟨yo, m⟩ := g
  cases yo with
  | none =>
    simp only [emitGroup] at hi
    obtain ⟨n, _, he⟩ := List.mem_map.mp hi
    exact absurd he (by simp)
  | some y' =>
    simp only [emitGroup] at hi
    by_cases hlen : m.length > 1
    · rw [if_pos hlen] at hi
      have he := List.mem_singleton.mp hi
      injection he.symm with h1 h2
      exact ⟨by rw [h1], hlen, h2.symm⟩
    · rw [if_neg hlen] at hi
      obtain ⟨n, _, he⟩ := List.mem_map.mp hi
      exact absurd he (by simp)


/-- C9 (amended): grouped rendering emits node blocks in ascending order
of the grouping reading, with `None` sorting before every concrete reading
(the Rust `Option` order); every emitted cluster has at least two members,
all sharing the cluster's `Some` reading; and every input node is emitted
exactly once (flat or inside a cluster). -/
theorem grouping_sorted_clusters (chosen : List Char) (l : List NodeInfo) :
    ((with_groups chosen l).Pairwise fun i j => optLe (itemKey i) (itemKey j) = true)
    ∧ (∀ y ms, DotItem.cluster y ms ∈ with_groups chosen l →
        2 ≤ ms.length ∧ ∀ m ∈ ms, m.1.yomi = some y)
    ∧ ((with_groups chosen l).flatMap itemNodes).Perm l := by
  have hsort : List.Pairwise (fun x y => optLe x.yomi y.yomi = true)
      (l.mergeSort fun x y => optLe x.yomi y.yomi) :=
    @List.sorted_mergeSort NodeInfo (fun x y => optLe x.yomi y.yomi)
      (fun a b c h1 h2 => optLe_trans _ _ _ h1 h2)
      (fun a b => optLe_total _ _) l
  have hperm : (l.mergeSort fun x y => optLe x.yomi y.yomi).Perm l :=
    List.mergeSort_perm l _
  have hkey : ∀ p ∈ runs (fun n : NodeInfo => n.yomi)
      (l.mergeSort fun x y => optLe x.yomi y.yomi), ∀ x ∈ p.2, x.yomi = p.1 :=
    runs_key _ _
  have hRpair : List.Pairwise (fun p q => optLe p.1 q.1 = true)
      (runs (fun n : NodeInfo => n.yomi)
        (l.mergeSort fun x y => optLe x.yomi y.yomi)) :=
    runs_pairwise _ (fun u v => optLe u v = true) _ hsort
  refine ⟨?_, ?_, ?_⟩
  · rw [with_groups, List.flatMap_def]
    apply List.pairwise_flatten.mpr
    constructor
    · intro l' hl'
      obtain ⟨p, hp, rfl⟩ := List.mem_map.mp hl'
      apply List.pairwise_of_forall_mem_list
      intro i hi j hj
      rw [emitGroup_key chosen p (hkey p hp) i hi,
        emitGroup_key chosen p (hkey p hp) j hj]
      exact optLe_refl _
    · rw [List.pairwise_map]
      refine hRpair.imp_of_mem ?_
      intro p q hp hq hpq x hx y hy
      rw [emitGroup_key chosen p (hkey p hp) x hx,
        emitGroup_key chosen q (hkey q hq) y hy]
      exact hpq
  · intro y ms hin
    rw [with_groups] at hin
    obtain ⟨p, hp, hi⟩ := List.mem_flatMap.mp hin
    obtain ⟨hp1, hlen, hms⟩ := emitGroup_cluster chosen p y ms hi
    constructor
    · rw [hms, List.length_map]
      omega
    · intro m hm
      rw [hms] at hm
      obtain ⟨n, hn, rfl⟩ := List.mem_map.mp hm
      show n.yomi = some y
      rw [hkey p hp n hn, hp1]
  · rw [with_groups, List.flatMap_assoc]
    have hfm : ((runs (fun n : NodeInfo => n.yomi)
          (l.mergeSort fun x y => optLe x.yomi y.yomi)).flatMap
            fun p => (emitGroup chosen p).flatMap itemNodes)
        = (runs (fun n : NodeInfo => n.yomi)
            (l.mergeSort fun x y => optLe x.yomi y.yomi)).flatMap (·.2) := by
      rw [List.flatMap_def, List.flatMap_def]
      congr 1
      exact List.map_congr_left fun p _ => emitGroup_nodes chosen p
    rw [hfm, runs_flatten]
    exact hperm

/-- C9 (counterexample): on three nodes — one with no reading, two
sharing reading あ — the no-reading node is emitted first, before the あ
cluster, because Rust's `Option` order puts `None` before every `Some`;
the claimed order (`None` after all concrete readings) does not occur. -/
theorem grouping_none_first_counterexample :
    with_groups [] [⟨0, '一', none, none⟩, ⟨1, '二', some ['あ'], none⟩,
        ⟨2, '三', some ['あ'], none⟩]
      = [DotItem.flat ⟨0, '一', none, none⟩ false,
         DotItem.cluster ['あ'] [(⟨1, '二', some ['あ'], none⟩, false),
           (⟨2, '三', some ['あ'], none⟩, false)]]
    ∧ (with_groups [] [⟨0, '一', none, none⟩, ⟨1, '二', some ['あ'], none⟩,
        ⟨2, '三', some ['あ'], none⟩]).map itemKey ≠ [some ['あ'], none] := by
  have hs : (([⟨0, '一', none, none⟩, ⟨1, '二', some ['あ'], none⟩,
        ⟨2, '三', some ['あ'], none⟩] : List NodeInfo).mergeSort
          fun x y => optLe x.yomi y.yomi)
      = [⟨0, '一', none, none⟩, ⟨1, '二', some ['あ'], none⟩,
         ⟨2, '三', some ['あ'], none⟩] :=
    List.mergeSort_of_sorted (by decide)
  constructor
  · rw [with_groups, hs]
    rfl
  · rw [with_groups, hs]
    decide

/-- Witness for C9: the cluster conjunct applied to the concrete あ
cluster of the counterexample input. -/
theorem grouping_sorted_clusters_witness :
    2 ≤ [((⟨1, '二', some ['あ'], none⟩ : NodeInfo), false),
         ((⟨2, '三', some ['あ'], none⟩ : NodeInfo), false)].length
    ∧ ∀ m ∈ [((⟨1, '二', some ['あ'], none⟩ : NodeInfo), false),
         ((⟨2, '三', some ['あ'], none⟩ : NodeInfo), false)],
        m.1.yomi = some ['あ'] := by
  have hs : (([⟨0, '一', none, none⟩, ⟨1, '二', some ['あ'], none⟩,
        ⟨2, '三', some ['あ'], none⟩] : List NodeInfo).mergeSort
          fun x y => optLe x.yomi y.yomi)
      = [⟨0, '一', none, none⟩, ⟨1, '二', some ['あ'], none⟩,
         ⟨2, '三', some ['あ'], none⟩] :=
    List.mergeSort_of_sorted (by decide)
  have hmem : DotItem.cluster ['あ'] [(⟨1, '二', some ['あ'], none⟩, false),
        (⟨2, '三', some ['あ'], none⟩, false)]
      ∈ with_groups [] [⟨0, '一', none, none⟩, ⟨1, '二', some ['あ'], none⟩,
        ⟨2, '三', some ['あ'], none⟩] := by
    rw [with_groups, hs]
    decide
  exact (grouping_sorted_clusters []
    [⟨0, '一', none, none⟩, ⟨1, '二', some ['あ'], none⟩,
     ⟨2, '三', some ['あ'], none⟩]).2.1 ['あ'] _ hmem

end KanjiNet
